import Mathlib

/-!
Verification of the nightbug front end and evaluator: a shallow embedding of
the lexer (src/lexer.rs), parser (src/parser.rs) and interpreter
(src/interpreter/mod.rs), together with theorems settling the specified
properties.

Modelling conventions:
* Rust byte/char offsets are `Nat`.  The lexer enumerates characters, so
  positions are character indices; on the ASCII inputs of all claims these
  coincide with byte offsets.
* `i32` values are `Int`; the only place 32-bit bounds matter in the source is
  `str::parse::<i32>`, modelled by the explicit `i32Max` bound.  (`add_native`
  uses `+=` on `i32`; its overflow behaviour is not exercised by any claim.)
* Recursive procedures take an explicit fuel argument and return
  `Option (Except e a)`; `none` stands for a computation that does not produce
  a value (fuel exhaustion, or a source `panic!`/`todo!`/`unreachable!`).
  Top-level drivers supply fuel exceeding the input length, which the
  sufficiency lemmas show is enough.
* The native-function table of `Interpreter::new` holds one host procedure,
  `add_native`; function pointers are defunctionalised into `NativeFn`.
-/

/-- Half-open range `start..stop` (Rust `Range<usize>`); `stop` is Rust `end`. -/
structure Span where
  start : Nat
  stop : Nat
deriving DecidableEq

/-- `TokenKind` from src/lexer.rs. -/
inductive TokenKind where
  | identOrKeyword (s : String)
  | integer (i : Int)
  | openParen
  | closeParen
  | whitespace
deriving DecidableEq

/-- `Token` from src/lexer.rs. -/
structure Token where
  span : Span
  kind : TokenKind
deriving DecidableEq

/-- `LexError` from src/lexer.rs (the `ParseIntError` payload is dropped). -/
inductive LexError where
  | unexpectedChar (c : Char) (idx : Nat)
  | couldntParseInt (s : String)
deriving DecidableEq

/-- Rust `'A'..='Z' | 'a'..='z'` (code points 65..90, 97..122). -/
def isAsciiAlpha (c : Char) : Bool :=
  (65 ≤ c.toNat && c.toNat ≤ 90) || (97 ≤ c.toNat && c.toNat ≤ 122)

/-- Rust `'0'..='9'` (code points 48..57). -/
def isAsciiDigit (c : Char) : Bool :=
  48 ≤ c.toNat && c.toNat ≤ 57

/-- First character of an identifier: `'A'..='Z' | 'a'..='z' | '_'`. -/
def isIdentStart (c : Char) : Bool :=
  isAsciiAlpha c || c.toNat = 95

/-- Continuation character of an identifier: `'A'..='Z' | 'a'..='z' | '_' | '0'..='9'`. -/
def isIdentChar (c : Char) : Bool :=
  isAsciiAlpha c || c.toNat = 95 || isAsciiDigit c

/-- Whitespace characters recognised by the lexer: space, tab, newline, carriage return. -/
def isWsChar (c : Char) : Bool :=
  c.toNat = 32 || c.toNat = 9 || c.toNat = 10 || c.toNat = 13

/-- Numeric value of a decimal digit character. -/
def digitVal (c : Char) : Nat := c.toNat - 48

/-- Value of a run of decimal digits, as `str::parse` computes it. -/
def digitsToNat (cs : List Char) : Nat :=
  cs.foldl (fun acc c => 10 * acc + digitVal c) 0

/-- `i32::MAX`; `str::parse::<i32>` succeeds on a digit run iff its value is within. -/
def i32Max : Nat := 2147483647

/-- Prepend a token to the result of the remaining lex run. -/
def consTok (t : Token) :
    Option (Except LexError (List Token)) → Option (Except LexError (List Token))
  | none => none
  | some (.error e) => some (.error e)
  | some (.ok ts) => some (.ok (t :: ts))

/-- The driving loop of `lex`: repeatedly classify the head character exactly as
`Lexer::lex_one_token` does (identifier runs via `consume_ident`, digit runs via
`consume_integer`, single-character parens, whitespace filtered out by the loop,
anything else `UnexpectedChar`). -/
def lexLoop : Nat → Nat → List Char → Option (Except LexError (List Token))
  | _ + 1, _, [] => some (.ok [])
  | 0, _, _ => none
  | fuel + 1, pos, c :: rest =>
    if isIdentStart c then
      let run := List.takeWhile isIdentChar (c :: rest)
      consTok ⟨⟨pos, pos + run.length⟩, .identOrKeyword ⟨run⟩⟩
        (lexLoop fuel (pos + run.length) (List.dropWhile isIdentChar (c :: rest)))
    else if isAsciiDigit c then
      let run := List.takeWhile isAsciiDigit (c :: rest)
      if digitsToNat run ≤ i32Max then
        consTok ⟨⟨pos, pos + run.length⟩, .integer (Int.ofNat (digitsToNat run))⟩
          (lexLoop fuel (pos + run.length) (List.dropWhile isAsciiDigit (c :: rest)))
      else some (.error (.couldntParseInt ⟨run⟩))
    else if c.toNat = 40 then
      consTok ⟨⟨pos, pos + 1⟩, .openParen⟩ (lexLoop fuel (pos + 1) rest)
    else if c.toNat = 41 then
      consTok ⟨⟨pos, pos + 1⟩, .closeParen⟩ (lexLoop fuel (pos + 1) rest)
    else if isWsChar c then
      lexLoop fuel (pos + 1) rest
    else some (.error (.unexpectedChar c pos))

/-- `lex` on a character list (the fuel exceeds the input length, which suffices). -/
def lexList (src : List Char) : Option (Except LexError (List Token)) :=
  lexLoop (src.length + 1) 0 src

/-- `lex` from src/lexer.rs. -/
def lexStr (s : String) : Option (Except LexError (List Token)) :=
  lexList s.data

/-- `ParseError` from src/parser.rs. -/
inductive ParseError where
  | unclosedDelimiter (location : Nat) (eof : Nat)
  | unexpectedCloseDelimiter (idx : Nat)
deriving DecidableEq

/-- `Keyword` from src/parser.rs. -/
inductive Keyword where
  | define
  | fn
deriving DecidableEq

/-- `Keyword::try_from` for strings. -/
def keywordFromStr (s : String) : Option Keyword :=
  if s = "define" then some .define
  else if s = "fn" then some .fn
  else none

mutual

/-- `Expr` from src/parser.rs: a span together with an `ExprKind`. -/
inductive Expr where
  | mk (span : Span) (kind : ExprKind)

/-- `ExprKind` from src/parser.rs. -/
inductive ExprKind where
  | keyword (k : Keyword)
  | identifier (s : String)
  | integer (i : Int)
  | boolean (b : Bool)
  | unit
  | argument (idx : Nat)
  | list (exprs : List Expr)

end

/-- The `span` field of an `Expr`. -/
def Expr.span : Expr → Span
  | ⟨s, _⟩ => s

/-- The `kind` field of an `Expr`. -/
def Expr.kind : Expr → ExprKind
  | ⟨_, k⟩ => k

/-- Identifier classification in `Parser::parse_token`: keywords first, then the
boolean literals, and plain identifiers otherwise. -/
def classifyIdent (span : Span) (s : String) : Expr :=
  match keywordFromStr s with
  | some k => ⟨span, .keyword k⟩
  | none =>
    if s = "true" then ⟨span, .boolean true⟩
    else if s = "false" then ⟨span, .boolean false⟩
    else ⟨span, .identifier s⟩

mutual

/-- `Parser::parse_token`: turn one token (plus the stream after it) into an
expression.  A bare `)` reports `UnexpectedCloseDelimiter(0)` (the source
hardcodes offset 0); `(` immediately followed by `)` gives `Unit` spanning
`start..start+2`; otherwise the first child is parsed and the list loop of the
source is entered with `prev = first.span.end - 1`.  A `Whitespace` token is
`unreachable!()` in the source, hence `none`. -/
def parseToken : Nat → Token → List Token → Option (Except ParseError (Expr × List Token))
  | 0, _, _ => none
  | fuel + 1, tok, toks =>
    match tok.kind with
    | .identOrKeyword s => some (.ok (classifyIdent tok.span s, toks))
    | .integer i => some (.ok (⟨tok.span, .integer i⟩, toks))
    | .closeParen => some (.error (.unexpectedCloseDelimiter 0))
    | .whitespace => none
    | .openParen =>
      match toks with
      | [] => some (.error (.unclosedDelimiter tok.span.start (tok.span.stop - 1)))
      | next :: rest =>
        match next.kind with
        | .closeParen => some (.ok (⟨⟨tok.span.start, tok.span.stop + 1⟩, .unit⟩, rest))
        | _ =>
          match parseToken fuel next rest with
          | none => none
          | some (.error e) => some (.error e)
          | some (.ok (first, rest1)) =>
            parseList fuel tok.span.start [first] (first.span.stop - 1) rest1

/-- The `loop` inside the `OpenParen` arm of `Parser::parse_token`: keep parsing
children until the matching `)`; at end of input report `UnclosedDelimiter`
with the opening position and the last recorded `prev_expr_span_end`. -/
def parseList : Nat → Nat → List Expr → Nat → List Token →
    Option (Except ParseError (Expr × List Token))
  | 0, _, _, _, _ => none
  | _ + 1, startPos, _, prev, [] =>
    some (.error (.unclosedDelimiter startPos prev))
  | fuel + 1, startPos, contents, prev, next :: rest =>
    match next.kind with
    | .closeParen => some (.ok (⟨⟨startPos, prev⟩, .list contents⟩, rest))
    | _ =>
      match parseToken fuel next rest with
      | none => none
      | some (.error e) => some (.error e)
      | some (.ok (e, rest1)) =>
        parseList fuel startPos (contents ++ [e]) e.span.stop rest1

end

/-- The driving loop of `parse`: parse expressions until the tokens run out. -/
def parseAll : Nat → List Token → Option (Except ParseError (List Expr))
  | _ + 1, [] => some (.ok [])
  | 0, _ => none
  | fuel + 1, tok :: rest =>
    match parseToken fuel tok rest with
    | none => none
    | some (.error e) => some (.error e)
    | some (.ok (e, rest1)) =>
      match parseAll fuel rest1 with
      | none => none
      | some (.error err) => some (.error err)
      | some (.ok es) => some (.ok (e :: es))

/-- `parse` from src/parser.rs (fuel exceeding the token count suffices). -/
def parseTokens (toks : List Token) : Option (Except ParseError (List Expr)) :=
  parseAll (toks.length + 1) toks

/-- `parse ∘ lex` on a source string. -/
def parseStr (s : String) : Option (Except ParseError (List Expr)) :=
  match lexStr s with
  | some (.ok toks) => parseTokens toks
  | _ => none

/-- The host procedures stored in `NativeFunction` bindings; the table built by
`Interpreter::new` contains exactly one, `add_native`. -/
inductive NativeFn where
  | addNative
deriving DecidableEq

mutual

/-- `Binding` from src/interpreter/mod.rs. -/
inductive Binding where
  | expression (e : Expr)
  | function (numArguments : Nat) (body : Expr)
  | nativeFunction (arity : Option Nat) (f : NativeFn)

/-- `InterpreterError` from src/interpreter/mod.rs. -/
inductive InterpreterError where
  | unknownIdentifier (s : String)
  | wrongNumArgs (ident : String) (expected : Nat) (got : Nat)
  | invalidArgument (ident : String) (b : Binding)

end

/-- The loop of `add_native`: sum integer expressions, failing on anything else. -/
def add_native_go : Int → List Binding → Except InterpreterError Binding
  | res, [] => .ok (.expression ⟨⟨0, 0⟩, .integer res⟩)
  | res, b :: rest =>
    match b with
    | .expression ⟨_, .integer i⟩ => add_native_go (res + i) rest
    | _ => .error (.invalidArgument "add" b)

/-- `add_native` from src/interpreter/mod.rs: variadic integer addition,
returning `Integer` spanning `0..0`, or `InvalidArgument` on a non-integer. -/
def add_native (bs : List Binding) : Except InterpreterError Binding :=
  add_native_go 0 bs

/-- Dispatch a defunctionalised host procedure. -/
def applyNative : NativeFn → List Binding → Except InterpreterError Binding
  | .addNative, bs => add_native bs

/-- The binding table built by `Interpreter::new`: exactly the seed entries
`add` (variadic native) and `second` (2-argument function with body
`Argument(1)` spanning `0..0`).  No code path of the interpreter inserts or
removes entries afterwards, so lookups go to this fixed map. -/
def newBindings (ident : String) : Option Binding :=
  if ident = "add" then some (.nativeFunction none .addNative)
  else if ident = "second" then some (.function 2 ⟨⟨0, 0⟩, .argument 1⟩)
  else none

/-- The substitution performed on a `List` function body: replace top-level
`Argument(num)` children by the `num`-th supplied argument (Rust `args[num]`,
whose out-of-range panic is `none` here); other children, including nested
lists, are kept as they are. -/
def substTop (args : List Expr) : List Expr → Option (List Expr)
  | [] => some []
  | e :: rest =>
    match (match e.kind with
           | .argument num => args.get? num
           | _ => some e) with
    | none => none
    | some e1 =>
      match substTop args rest with
      | none => none
      | some rest1 => some (e1 :: rest1)

mutual

/-- `Interpreter::interpret`: evaluate the first expression of the sequence.
An empty sequence yields `Unit` spanning `0..0`; literals reduce to
themselves; a list is interpreted recursively (trailing expressions are
dropped); identifiers dispatch to `handle_identifier`; `Keyword` is `todo!()`
and `Argument` is `unreachable!()` in the source, hence `none`. -/
def interpret : Nat → List Expr → Option (Except InterpreterError Binding)
  | 0, _ => none
  | _ + 1, [] => some (.ok (.expression ⟨⟨0, 0⟩, .unit⟩))
  | fuel + 1, e :: rest =>
    match e.kind with
    | .integer _ => some (.ok (.expression e))
    | .boolean _ => some (.ok (.expression e))
    | .unit => some (.ok (.expression e))
    | .list inner => interpret fuel inner
    | .identifier ident => handle_identifier fuel ident e.span rest
    | .keyword _ => none
    | .argument _ => none

/-- `Interpreter::handle_identifier`: look the name up in the table built by
`Interpreter::new`; unknown names fail with `UnknownIdentifier`; an
`Expression` binding is returned as is; a callable binding is applied to the
trailing expressions when there are any and returned unapplied otherwise. -/
def handle_identifier : Nat → String → Span → List Expr →
    Option (Except InterpreterError Binding)
  | 0, _, _, _ => none
  | fuel + 1, ident, span, exprs =>
    match newBindings ident with
    | none => some (.error (.unknownIdentifier ident))
    | some (.expression e) => some (.ok (.expression e))
    | some binding =>
      if exprs.length ≠ 0 then handle_function fuel binding ident span exprs
      else some (.ok binding)

/-- `Interpreter::handle_function`.  User function: exact arity check, then the
argument-substitution rewrite of the body and evaluation of the result (a
`Keyword` or `Argument` body after substitution is `todo!()`).  Native
function: optional arity check, then each `List` argument is reduced through
`evalNativeArgs` and the host procedure is applied.  An `Expression` binding
is ruled out by the source assertion, hence `none`. -/
def handle_function : Nat → Binding → String → Span → List Expr →
    Option (Except InterpreterError Binding)
  | 0, _, _, _, _ => none
  | _ + 1, .expression _, _, _, _ => none
  | fuel + 1, .function numArguments body, ident, _, exprs =>
    if exprs.length ≠ numArguments then
      some (.error (.wrongNumArgs ident numArguments exprs.length))
    else
      match (match body.kind with
             | .argument num => exprs.get? num
             | _ => some body) with
      | none => none
      | some body1 =>
        match body1.kind with
        | .list contents =>
          match substTop exprs contents with
          | none => none
          | some contents1 => interpret fuel contents1
        | .identifier _ => handle_identifier fuel ident body1.span []
        | .integer _ => some (.ok (.expression body1))
        | .boolean _ => some (.ok (.expression body1))
        | .unit => some (.ok (.expression body1))
        | _ => none
  | fuel + 1, .nativeFunction maybeNum f, ident, _, exprs =>
    match maybeNum with
    | some numArguments =>
      if exprs.length ≠ numArguments then
        some (.error (.wrongNumArgs ident numArguments exprs.length))
      else
        match evalNativeArgs fuel exprs with
        | none => none
        | some (.error e) => some (.error e)
        | some (.ok bs) => some (applyNative f bs)
    | none =>
      match evalNativeArgs fuel exprs with
      | none => none
      | some (.error e) => some (.error e)
      | some (.ok bs) => some (applyNative f bs)

/-- The argument loop in the native arm of `handle_function`: arguments that
are lists are reduced by a nested `interpret` call; every other argument is
wrapped as an `Expression` binding unchanged. -/
def evalNativeArgs : Nat → List Expr → Option (Except InterpreterError (List Binding))
  | 0, _ => none
  | _ + 1, [] => some (.ok [])
  | fuel + 1, e :: rest =>
    match (match e.kind with
           | .list contents => interpret fuel contents
           | _ => some (.ok (.expression e))) with
    | none => none
    | some (.error err) => some (.error err)
    | some (.ok b) =>
      match evalNativeArgs fuel rest with
      | none => none
      | some (.error err) => some (.error err)
      | some (.ok bs) => some (.ok (b :: bs))

end

/-- The pipeline of `main`: lex, parse, then interpret the expression sequence. -/
def run (fuel : Nat) (s : String) : Option (Except InterpreterError Binding) :=
  match parseStr s with
  | some (.ok es) => interpret fuel es
  | _ => none

/-! ## Analysis helpers: token-stream scans and source slices -/

/-- No `Whitespace` token occurs in the stream; `lex` filters them out, and the
parser treats one as `unreachable!()`. -/
def noWs (toks : List Token) : Bool :=
  toks.all fun t =>
    match t.kind with
    | .whitespace => false
    | _ => true

/-- Left-to-right paren scan from nesting depth `d`: `true` iff a `)` is met
while the depth is zero, i.e. a close delimiter with no matching open. -/
def scanDepth (d : Nat) : List Token → Bool
  | [] => false
  | t :: rest =>
    match t.kind with
    | .openParen => scanDepth (d + 1) rest
    | .closeParen =>
      match d with
      | 0 => true
      | d + 1 => scanDepth d rest
    | _ => scanDepth d rest

/-- Stack of the start offsets of currently unclosed `(` after scanning the
stream; the head is the most recently opened one. -/
def openStack (st : List Nat) : List Token → List Nat
  | [] => st
  | t :: rest =>
    match t.kind with
    | .openParen => openStack (t.span.start :: st) rest
    | .closeParen =>
      match st with
      | [] => openStack [] rest
      | _ :: st1 => openStack st1 rest
    | _ => openStack st rest

/-- The characters of `src` at a span: `src[sp.start..sp.stop]`. -/
def sourceSlice (src : List Char) (sp : Span) : List Char :=
  (src.drop sp.start).take (sp.stop - sp.start)

/-- The character classes accepted by the lexer without error: ASCII letters,
digits, underscore, parentheses, whitespace. -/
def allowedChar (c : Char) : Bool :=
  isIdentChar c || c.toNat = 40 || c.toNat = 41 || isWsChar c

/-! ## Claims: concrete pipeline results -/

/-- C1: interpreting the parsed form of `"(add 2 3)"` yields
`Expression(Integer(5))`, of `"(second 2 3)"` yields `Expression(Integer(3))`
(the literal `3` of the source, spanning `10..11`), and of
`"(add 2 (second 3 4))"` yields `Expression(Integer(6))`. -/
theorem interpret_sample_programs :
    run 100 "(add 2 3)" = some (.ok (.expression ⟨⟨0, 0⟩, .integer 5⟩)) ∧
    run 100 "(second 2 3)" = some (.ok (.expression ⟨⟨10, 11⟩, .integer 3⟩)) ∧
    run 100 "(add 2 (second 3 4))" = some (.ok (.expression ⟨⟨0, 0⟩, .integer 6⟩)) :=
  ⟨rfl, rfl, rfl⟩

/-- C8: the bare identifier `second` evaluates to the arity-2 `Function`
binding itself (body `Argument(1)`), unapplied, and the bare identifier `add`
evaluates to the `NativeFunction` binding with `None` (variadic) arity. -/
theorem bare_identifiers_yield_callables :
    run 100 "second" = some (.ok (.function 2 ⟨⟨0, 0⟩, .argument 1⟩)) ∧
    run 100 "add" = some (.ok (.nativeFunction none .addNative)) :=
  ⟨rfl, rfl⟩

/-- C9: interpreting an empty expression sequence succeeds with
`Expression(Unit)` spanning `0..0`, at every fuel. -/
theorem interpret_nil_unit (fuel : Nat) :
    interpret (fuel + 1) [] = some (.ok (.expression ⟨⟨0, 0⟩, .unit⟩)) :=
  rfl

/-- C6 counterexample: `(second)` supplies zero argument expressions to the
2-arity function `second`, yet interpretation succeeds with the unapplied
`Function` binding instead of failing with `WrongNumArgs` carrying `got: 0`. -/
theorem second_zero_args_no_error :
    run 100 "(second)" = some (.ok (.function 2 ⟨⟨0, 0⟩, .argument 1⟩)) ∧
    run 100 "(second)" ≠ some (.error (.wrongNumArgs "second" 2 0)) :=
  ⟨rfl, fun h => by
    have h2 : some (Except.ok (Binding.function 2 ⟨⟨0, 0⟩, .argument 1⟩)) =
        some (Except.error (InterpreterError.wrongNumArgs "second" 2 0)) := h
    injection h2 with h3
    exact Except.noConfusion h3⟩

/-- C6 (amended): calling `second` with at least one argument expression and an
argument count other than 2 fails with `WrongNumArgs{ident: "second",
expected: 2, got: n}`.  The arguments themselves are never examined: the
result is the same for every argument list of that length and at every fuel,
including fuels far too small to evaluate any argument. -/
theorem second_wrong_arity (fuel : Nat) (span : Span) (args : List Expr)
    (hne : args ≠ []) (hlen : args.length ≠ 2) :
    interpret (fuel + 3) (⟨span, .identifier "second"⟩ :: args) =
      some (.error (.wrongNumArgs "second" 2 args.length)) := by
  have h0 : args.length ≠ 0 := fun h => hne (List.eq_nil_of_length_eq_zero h)
  simp [interpret, handle_identifier, handle_function, newBindings, Expr.kind, Expr.span, h0, hlen]

/-- Witness for `second_wrong_arity` at one concrete argument. -/
theorem second_wrong_arity_witness :
    ([(⟨⟨0, 0⟩, .integer 1⟩ : Expr)] ≠ []) ∧ (([(⟨⟨0, 0⟩, .integer 1⟩ : Expr)].length) ≠ 2) ∧
    interpret 3 [⟨⟨0, 0⟩, .identifier "second"⟩, ⟨⟨0, 0⟩, .integer 1⟩] =
      some (.error (.wrongNumArgs "second" 2 1)) :=
  ⟨fun h => by simp at h, by decide,
   second_wrong_arity 0 ⟨0, 0⟩ [⟨⟨0, 0⟩, .integer 1⟩] (fun h => by simp at h) (by decide)⟩

/-- C10: the binding table of `Interpreter::new` holds exactly the two seed
entries `add` and `second` (the interpreter has no code path that writes to
the table afterwards, so every lookup sees this map), and resolving any other
identifier always fails with `UnknownIdentifier` naming it. -/
theorem binding_table_fixed :
    newBindings "add" = some (.nativeFunction none .addNative) ∧
    newBindings "second" = some (.function 2 ⟨⟨0, 0⟩, .argument 1⟩) ∧
    ∀ ident, ident ≠ "add" → ident ≠ "second" →
      newBindings ident = none ∧
      ∀ fuel span exprs, handle_identifier (fuel + 1) ident span exprs =
        some (.error (.unknownIdentifier ident)) := by
  refine ⟨rfl, rfl, fun ident h1 h2 => ?_⟩
  have hb : newBindings ident = none := by simp [newBindings, h1, h2]
  exact ⟨hb, fun fuel span exprs => by simp [handle_identifier, hb]⟩

/-- Witness for `binding_table_fixed` at the identifier `foobar`. -/
theorem binding_table_fixed_witness :
    ("foobar" ≠ "add") ∧ ("foobar" ≠ "second") ∧
    newBindings "foobar" = none ∧
    handle_identifier 1 "foobar" ⟨0, 0⟩ [] =
      some (.error (.unknownIdentifier "foobar")) := by
  have h := binding_table_fixed.2.2 "foobar" (by decide) (by decide)
  exact ⟨by decide, by decide, h.1, h.2 0 ⟨0, 0⟩ []⟩

/-! ## Lexer lemmas (C2) -/

theorem take_len_takeWhile (p : Char → Bool) : ∀ l : List Char,
    l.take (l.takeWhile p).length = l.takeWhile p := by
  intro l
  induction l with
  | nil => rfl
  | cons c rest ih =>
    by_cases h : p c
    · simp [List.takeWhile_cons, h, ih]
    · simp [List.takeWhile_cons, h]

theorem drop_len_takeWhile (p : Char → Bool) : ∀ l : List Char,
    l.drop (l.takeWhile p).length = l.dropWhile p := by
  intro l
  induction l with
  | nil => rfl
  | cons c rest ih =>
    by_cases h : p c
    · simp [List.takeWhile_cons, List.dropWhile_cons, h, ih]
    · simp [List.takeWhile_cons, List.dropWhile_cons, h]

theorem identStart_identChar {c : Char} (h : isIdentStart c = true) : isIdentChar c = true := by
  simp [isIdentStart, isAsciiAlpha] at h
  simp [isIdentChar, isAsciiAlpha, isAsciiDigit]
  omega

theorem identChar_not_ws {c : Char} (h : isIdentChar c = true) : isWsChar c = false := by
  simp [isIdentChar, isAsciiAlpha, isAsciiDigit] at h
  simp [isWsChar]
  omega

theorem digit_not_ws {c : Char} (h : isAsciiDigit c = true) : isWsChar c = false := by
  simp [isAsciiDigit] at h
  simp [isWsChar]
  omega

theorem paren_not_ws {c : Char} (h : c.toNat = 40 ∨ c.toNat = 41) : isWsChar c = false := by
  simp [isWsChar]
  omega

theorem allowed_residual_ws {c : Char} (h : allowedChar c = true) (h1 : isIdentStart c = false)
    (h2 : isAsciiDigit c = false) (h3 : ¬c.toNat = 40) (h4 : ¬c.toNat = 41) :
    isWsChar c = true := by
  simp [allowedChar, isIdentChar, isIdentStart, isAsciiAlpha, isAsciiDigit, isWsChar] at *
  omega

theorem filter_not_ws_self {l : List Char} (h : ∀ a ∈ l, isWsChar a = false) :
    (l.filter fun c => !isWsChar c) = l :=
  List.filter_eq_self.mpr fun a ha => by simp [h a ha]

theorem lexLoop_ident_step (fuel pos : Nat) (c : Char) (rest : List Char)
    (h : isIdentStart c = true) :
    lexLoop (fuel + 1) pos (c :: rest) =
      consTok ⟨⟨pos, pos + ((c :: rest).takeWhile isIdentChar).length⟩,
               .identOrKeyword ⟨(c :: rest).takeWhile isIdentChar⟩⟩
        (lexLoop fuel (pos + ((c :: rest).takeWhile isIdentChar).length)
          ((c :: rest).dropWhile isIdentChar)) := by
  simp [lexLoop, h]

theorem lexLoop_digit_step (fuel pos : Nat) (c : Char) (rest : List Char)
    (h1 : isIdentStart c = false) (h2 : isAsciiDigit c = true) :
    lexLoop (fuel + 1) pos (c :: rest) =
      if digitsToNat ((c :: rest).takeWhile isAsciiDigit) ≤ i32Max then
        consTok ⟨⟨pos, pos + ((c :: rest).takeWhile isAsciiDigit).length⟩,
                 .integer (Int.ofNat (digitsToNat ((c :: rest).takeWhile isAsciiDigit)))⟩
          (lexLoop fuel (pos + ((c :: rest).takeWhile isAsciiDigit).length)
            ((c :: rest).dropWhile isAsciiDigit))
      else some (.error (.couldntParseInt ⟨(c :: rest).takeWhile isAsciiDigit⟩)) := by
  simp [lexLoop, h1, h2]

theorem lexLoop_open_step (fuel pos : Nat) (c : Char) (rest : List Char)
    (h1 : isIdentStart c = false) (h2 : isAsciiDigit c = false) (h3 : c.toNat = 40) :
    lexLoop (fuel + 1) pos (c :: rest) =
      consTok ⟨⟨pos, pos + 1⟩, .openParen⟩ (lexLoop fuel (pos + 1) rest) := by
  simp [lexLoop, h1, h2, h3]

theorem lexLoop_close_step (fuel pos : Nat) (c : Char) (rest : List Char)
    (h1 : isIdentStart c = false) (h2 : isAsciiDigit c = false) (h3 : c.toNat = 41) :
    lexLoop (fuel + 1) pos (c :: rest) =
      consTok ⟨⟨pos, pos + 1⟩, .closeParen⟩ (lexLoop fuel (pos + 1) rest) := by
  simp [lexLoop, h1, h2, h3]

theorem lexLoop_ws_step (fuel pos : Nat) (c : Char) (rest : List Char)
    (h1 : isIdentStart c = false) (h2 : isAsciiDigit c = false) (h3 : ¬c.toNat = 40)
    (h4 : ¬c.toNat = 41) (h5 : isWsChar c = true) :
    lexLoop (fuel + 1) pos (c :: rest) = lexLoop fuel (pos + 1) rest := by
  simp [lexLoop, h1, h2, h3, h4, h5]

theorem run_split (src : List Char) (pos : Nat) (p : Char → Bool) (c : Char) (rest : List Char)
    (hcs : src.drop pos = c :: rest) (hc : p c = true) :
    1 ≤ ((c :: rest).takeWhile p).length ∧
    src.drop (pos + ((c :: rest).takeWhile p).length) = (c :: rest).dropWhile p ∧
    ((c :: rest).dropWhile p).length + ((c :: rest).takeWhile p).length = (c :: rest).length ∧
    sourceSlice src ⟨pos, pos + ((c :: rest).takeWhile p).length⟩ = (c :: rest).takeWhile p := by
  refine ⟨?_, ?_, ?_, ?_⟩
  · simp [List.takeWhile_cons, hc]
  · rw [← drop_len_takeWhile p (c :: rest), ← hcs, List.drop_drop]
  · have h := congrArg List.length (List.takeWhile_append_dropWhile p (c :: rest))
    simp only [List.length_append] at h
    omega
  · simp only [sourceSlice, Nat.add_sub_cancel_left]
    rw [hcs, take_len_takeWhile]

theorem single_split (src : List Char) (pos : Nat) (c : Char) (rest : List Char)
    (hcs : src.drop pos = c :: rest) :
    src.drop (pos + 1) = rest ∧ sourceSlice src ⟨pos, pos + 1⟩ = [c] := by
  constructor
  · rw [← List.drop_drop, hcs]
    rfl
  · simp only [sourceSlice, Nat.add_sub_cancel_left]
    rw [hcs]
    rfl

theorem lexLoop_allowed (src : List Char) : ∀ fuel pos,
    (src.drop pos).length < fuel → (∀ a ∈ src.drop pos, allowedChar a = true) →
    (∃ toks, lexLoop fuel pos (src.drop pos) = some (.ok toks) ∧
        (toks.map fun t => sourceSlice src t.span).flatten =
          (src.drop pos).filter fun a => !isWsChar a) ∨
    (∃ s, lexLoop fuel pos (src.drop pos) = some (.error (.couldntParseInt s))) := by
  intro fuel
  induction fuel with
  | zero => intro pos hlen _; omega
  | succ fuel ih =>
    intro pos hlen hall
    cases hcs : src.drop pos with
    | nil =>
      left
      exact ⟨[], rfl, by simp⟩
    | cons c rest =>
      rw [hcs] at hlen hall
      have hc : allowedChar c = true := hall c (List.mem_cons_self c rest)
      cases hstart : isIdentStart c with
      | true =>
        obtain ⟨hk1, hdrop, hlensum, hslice⟩ :=
          run_split src pos isIdentChar c rest hcs (identStart_identChar hstart)
        rw [lexLoop_ident_step fuel pos c rest hstart]
        have hlen2 : (src.drop (pos + ((c :: rest).takeWhile isIdentChar).length)).length < fuel := by
          rw [hdrop]; omega
        have hall2 : ∀ a ∈ src.drop (pos + ((c :: rest).takeWhile isIdentChar).length),
            allowedChar a = true := by
          rw [hdrop]
          intro a ha
          exact hall a ((List.dropWhile_sublist _).subset ha)
        rcases ih _ hlen2 hall2 with ⟨toks, hok, hjoin⟩ | ⟨s, herr⟩
        · left
          rw [← hdrop, hok]
          refine ⟨_ :: toks, rfl, ?_⟩
          simp only [List.map_cons, List.flatten_cons]
          rw [hslice, hjoin, hdrop]
          calc (c :: rest).takeWhile isIdentChar ++
                  ((c :: rest).dropWhile isIdentChar).filter (fun a => !isWsChar a)
              = ((c :: rest).takeWhile isIdentChar).filter (fun a => !isWsChar a) ++
                  ((c :: rest).dropWhile isIdentChar).filter (fun a => !isWsChar a) := by
                rw [filter_not_ws_self fun a ha =>
                  identChar_not_ws (List.mem_takeWhile_imp ha)]
            _ = ((c :: rest).takeWhile isIdentChar ++
                  (c :: rest).dropWhile isIdentChar).filter (fun a => !isWsChar a) :=
                (List.filter_append _ _).symm
            _ = (c :: rest).filter (fun a => !isWsChar a) := by
                rw [List.takeWhile_append_dropWhile]
        · right
          rw [← hdrop, herr]
          exact ⟨s, rfl⟩
      | false =>
        cases hdigit : isAsciiDigit c with
        | true =>
          obtain ⟨hk1, hdrop, hlensum, hslice⟩ :=
            run_split src pos isAsciiDigit c rest hcs hdigit
          rw [lexLoop_digit_step fuel pos c rest hstart hdigit]
          by_cases hle : digitsToNat ((c :: rest).takeWhile isAsciiDigit) ≤ i32Max
          · rw [if_pos hle]
            have hlen2 :
                (src.drop (pos + ((c :: rest).takeWhile isAsciiDigit).length)).length < fuel := by
              rw [hdrop]; omega
            have hall2 : ∀ a ∈ src.drop (pos + ((c :: rest).takeWhile isAsciiDigit).length),
                allowedChar a = true := by
              rw [hdrop]
              intro a ha
              exact hall a ((List.dropWhile_sublist _).subset ha)
            rcases ih _ hlen2 hall2 with ⟨toks, hok, hjoin⟩ | ⟨s, herr⟩
            · left
              rw [← hdrop, hok]
              refine ⟨_ :: toks, rfl, ?_⟩
              simp only [List.map_cons, List.flatten_cons]
              rw [hslice, hjoin, hdrop]
              calc (c :: rest).takeWhile isAsciiDigit ++
                      ((c :: rest).dropWhile isAsciiDigit).filter (fun a => !isWsChar a)
                  = ((c :: rest).takeWhile isAsciiDigit).filter (fun a => !isWsChar a) ++
                      ((c :: rest).dropWhile isAsciiDigit).filter (fun a => !isWsChar a) := by
                    rw [filter_not_ws_self fun a ha =>
                      digit_not_ws (List.mem_takeWhile_imp ha)]
                _ = ((c :: rest).takeWhile isAsciiDigit ++
                      (c :: rest).dropWhile isAsciiDigit).filter (fun a => !isWsChar a) :=
                    (List.filter_append _ _).symm
                _ = (c :: rest).filter (fun a => !isWsChar a) := by
                    rw [List.takeWhile_append_dropWhile]
            · right
              rw [← hdrop, herr]
              exact ⟨s, rfl⟩
          · rw [if_neg hle]
            right
            exact ⟨_, rfl⟩
        | false =>
          obtain ⟨hdrop1, hslice1⟩ := single_split src pos c rest hcs
          have hlen1 : (src.drop (pos + 1)).length < fuel := by
            rw [hdrop1]
            simp only [List.length_cons] at hlen
            omega
          have hall1 : ∀ a ∈ src.drop (pos + 1), allowedChar a = true := by
            rw [hdrop1]
            intro a ha
            exact hall a (List.mem_cons_of_mem _ ha)
          by_cases h40 : c.toNat = 40
          · rw [lexLoop_open_step fuel pos c rest hstart hdigit h40]
            rcases ih _ hlen1 hall1 with ⟨toks, hok, hjoin⟩ | ⟨s, herr⟩
            · left
              rw [← hdrop1, hok]
              refine ⟨_ :: toks, rfl, ?_⟩
              simp only [List.map_cons, List.flatten_cons]
              rw [hslice1, hjoin, hdrop1,
                List.filter_cons_of_pos (by simp [paren_not_ws (Or.inl h40)])]
              rfl
            · right
              rw [← hdrop1, herr]
              exact ⟨s, rfl⟩
          · by_cases h41 : c.toNat = 41
            · rw [lexLoop_close_step fuel pos c rest hstart hdigit h41]
              rcases ih _ hlen1 hall1 with ⟨toks, hok, hjoin⟩ | ⟨s, herr⟩
              · left
                rw [← hdrop1, hok]
                refine ⟨_ :: toks, rfl, ?_⟩
                simp only [List.map_cons, List.flatten_cons]
                rw [hslice1, hjoin, hdrop1,
                  List.filter_cons_of_pos (by simp [paren_not_ws (Or.inr h41)])]
                rfl
              · right
                rw [← hdrop1, herr]
                exact ⟨s, rfl⟩
            · have hws : isWsChar c = true := allowed_residual_ws hc hstart hdigit h40 h41
              rw [lexLoop_ws_step fuel pos c rest hstart hdigit h40 h41 hws]
              rcases ih _ hlen1 hall1 with ⟨toks, hok, hjoin⟩ | ⟨s, herr⟩
              · left
                rw [← hdrop1, hok]
                refine ⟨toks, rfl, ?_⟩
                rw [hjoin, hdrop1, List.filter_cons_of_neg (by simp [hws])]
              · right
                rw [← hdrop1, herr]
                exact ⟨s, rfl⟩

/-- C2 counterexample: the digit run `9999999999` exceeds `i32::MAX`, so on this
input — made of allowed characters only — `lex` does not succeed but fails with
`CouldntParseInt`. -/
theorem lex_overflow_counterexample :
    (∀ a ∈ "9999999999".data, allowedChar a = true) ∧
    lexStr "9999999999" = some (.error (.couldntParseInt "9999999999")) :=
  ⟨by decide, rfl⟩

/-- C2 (amended): on input made only of ASCII letters, digits, underscore,
parentheses and whitespace, `lex` either succeeds — and then concatenating the
source slices at the spans of the returned tokens, in order, gives exactly the
input with the whitespace characters removed — or fails with `CouldntParseInt`
on an integer literal exceeding `i32::MAX`. -/
theorem lex_reconstructs_nonws (src : List Char) (hall : ∀ a ∈ src, allowedChar a = true) :
    (∃ toks, lexList src = some (.ok toks) ∧
        (toks.map fun t => sourceSlice src t.span).flatten =
          src.filter fun a => !isWsChar a) ∨
    (∃ s, lexList src = some (.error (.couldntParseInt s))) := by
  have h := lexLoop_allowed src (src.length + 1) 0 (by simp) (by simpa using hall)
  simpa [lexList] using h

/-- Witness for `lex_reconstructs_nonws` on the sample program text. -/
theorem lex_reconstructs_nonws_witness :
    (∀ a ∈ "(add 2 3)".data, allowedChar a = true) ∧
    ((∃ toks, lexList "(add 2 3)".data = some (.ok toks) ∧
        (toks.map fun t => sourceSlice "(add 2 3)".data t.span).flatten =
          "(add 2 3)".data.filter fun a => !isWsChar a) ∨
     (∃ s, lexList "(add 2 3)".data = some (.error (.couldntParseInt s)))) :=
  ⟨by decide, lex_reconstructs_nonws _ (by decide)⟩

/-- C3 counterexample: parsing `(a)` produces a `List` whose span is `0..1`,
while its last (only) child spans `1..2`: the list span ends one short of the
end of the last child, not at it. -/
theorem single_child_list_span_counterexample :
    parseStr "(a)" = some (.ok [⟨⟨0, 1⟩, .list [⟨⟨1, 2⟩, .identifier "a"⟩]⟩]) ∧
    (1 : Nat) ≠ 2 :=
  ⟨rfl, by decide⟩

/-- C4 counterexample: in `a)` the unmatched `)` sits at byte offset 1, yet
`parse` reports `UnexpectedCloseDelimiter 0` — the source hardcodes offset 0. -/
theorem unexpected_close_offset_counterexample :
    lexStr "a)" = some (.ok [⟨⟨0, 1⟩, .identOrKeyword "a"⟩, ⟨⟨1, 2⟩, .closeParen⟩]) ∧
    parseStr "a)" = some (.error (.unexpectedCloseDelimiter 0)) ∧
    (0 : Nat) ≠ 1 :=
  ⟨rfl, rfl, by decide⟩

/-- C5 counterexample: there is no uniform reading of `eof` as "the last
successfully consumed position".  For `(a` the last consumed token `a` spans
`1..2` and its end is 2, yet `eof` is 1; for `(a b` the last consumed token
`b` spans `3..4`, its last character sits at 3, yet `eof` is 4.  The two
records disagree by one in opposite directions. -/
theorem unclosed_eof_counterexample :
    lexStr "(a" = some (.ok [⟨⟨0, 1⟩, .openParen⟩, ⟨⟨1, 2⟩, .identOrKeyword "a"⟩]) ∧
    parseStr "(a" = some (.error (.unclosedDelimiter 0 1)) ∧
    lexStr "(a b" = some (.ok [⟨⟨0, 1⟩, .openParen⟩, ⟨⟨1, 2⟩, .identOrKeyword "a"⟩,
      ⟨⟨3, 4⟩, .identOrKeyword "b"⟩]) ∧
    parseStr "(a b" = some (.error (.unclosedDelimiter 0 4)) ∧
    (1 : Nat) ≠ 2 ∧ (4 : Nat) ≠ 3 :=
  ⟨rfl, rfl, rfl, rfl, by decide, by decide⟩

/-- C7 counterexample: in `(add 2 x)` the argument `x` is not a list, so it is
handed to the host procedure unreduced, as the raw syntax binding
`Expression(Identifier "x")` — recorded verbatim in the `InvalidArgument`
error `add_native` returns.  The host therefore does receive raw syntax. -/
theorem native_receives_raw_identifier :
    run 100 "(add 2 x)" =
      some (.error (.invalidArgument "add" (.expression ⟨⟨7, 8⟩, .identifier "x"⟩))) :=
  rfl

/-! ## Parser lemmas (C3, C4, C5) -/

theorem parseToken_open_step (fuel : Nat) (tsp : Span) (next : Token) (rest : List Token) :
    parseToken (fuel + 1) ⟨tsp, .openParen⟩ (next :: rest) =
      if next.kind = .closeParen then
        some (.ok (⟨⟨tsp.start, tsp.stop + 1⟩, .unit⟩, rest))
      else
        match parseToken fuel next rest with
        | none => none
        | some (.error e) => some (.error e)
        | some (.ok (first, rest1)) =>
          parseList fuel tsp.start [first] (first.span.stop - 1) rest1 := by
  obtain ⟨nsp, nkind⟩ := next
  cases nkind <;> rfl

theorem parseList_step (fuel startPos : Nat) (contents : List Expr) (prev : Nat)
    (next : Token) (rest : List Token) :
    parseList (fuel + 1) startPos contents prev (next :: rest) =
      if next.kind = .closeParen then
        some (.ok (⟨⟨startPos, prev⟩, .list contents⟩, rest))
      else
        match parseToken fuel next rest with
        | none => none
        | some (.error e) => some (.error e)
        | some (.ok (e, rest1)) =>
          parseList fuel startPos (contents ++ [e]) e.span.stop rest1 := by
  obtain ⟨nsp, nkind⟩ := next
  cases nkind <;> rfl

theorem parseList_span_inv : ∀ (fuel startPos : Nat) (contents : List Expr) (prev : Nat)
    (toks : List Token) (e : Expr) (rest1 : List Token),
    parseList fuel startPos contents prev toks = some (.ok (e, rest1)) →
    ∃ more, e.kind = ExprKind.list (contents ++ more) ∧ e.span.start = startPos ∧
      ((more = [] ∧ e.span.stop = prev) ∨
       (∃ l, more.getLast? = some l ∧ e.span.stop = l.span.stop)) := by
  intro fuel
  induction fuel with
  | zero => intro _ _ _ _ _ _ h; exact Option.noConfusion h
  | succ fuel ih =>
    intro startPos contents prev toks e rest1 h
    cases toks with
    | nil => exact Except.noConfusion (Option.some.inj h)
    | cons next rest =>
      rw [parseList_step] at h
      by_cases hck : next.kind = .closeParen
      · rw [if_pos hck] at h
        simp only [Option.some.injEq, Except.ok.injEq, Prod.mk.injEq] at h
        obtain ⟨he, -⟩ := h
        subst he
        exact ⟨[], by simp [Expr.kind], rfl, Or.inl ⟨rfl, rfl⟩⟩
      · rw [if_neg hck] at h
        cases hpt : parseToken fuel next rest with
        | none => rw [hpt] at h; exact Option.noConfusion h
        | some r =>
          rw [hpt] at h
          cases r with
          | error err => exact Except.noConfusion (Option.some.inj h)
          | ok pr =>
            obtain ⟨e1, rest2⟩ := pr
            obtain ⟨more1, hkind, hstart, hstop⟩ :=
              ih startPos (contents ++ [e1]) e1.span.stop rest2 e rest1 h
            rw [List.append_assoc] at hkind
            refine ⟨e1 :: more1, hkind, hstart, ?_⟩
            rcases hstop with ⟨hm, hs⟩ | ⟨l, hl, hs⟩
            · subst hm
              exact Or.inr ⟨e1, by simp, hs⟩
            · refine Or.inr ⟨l, ?_, hs⟩
              cases more1 with
              | nil => exact Option.noConfusion hl
              | cons m ms => rw [List.getLast?_cons_cons]; exact hl

theorem classifyIdent_not_list_unit (sp : Span) (s : String) :
    (∀ children, (classifyIdent sp s).kind ≠ ExprKind.list children) ∧
    (classifyIdent sp s).kind ≠ ExprKind.unit := by
  unfold classifyIdent
  cases keywordFromStr s with
  | some k => exact ⟨fun _ => by simp [Expr.kind], by simp [Expr.kind]⟩
  | none =>
    by_cases h1 : s = "true"
    · simp [h1, Expr.kind]
    · by_cases h2 : s = "false" <;> simp [h1, h2, Expr.kind]

/-- C3 (amended): a successfully parsed `List` expression has the span start of
its opening `(` token; its span end is the end of the span of its last child
when it has at least two children, but `last child end - 1` when it has exactly
one child.  A `Unit` expression spans `start..start+2` of its opening `(` — one
past the closing `)` only when that `)` immediately follows the `(`. -/
theorem list_expr_spans (fuel : Nat) (tok : Token) (toks : List Token) (e : Expr)
    (rest1 : List Token) (hok : parseToken fuel tok toks = some (.ok (e, rest1))) :
    (∀ children, e.kind = ExprKind.list children →
      ∃ l, children.getLast? = some l ∧ e.span.start = tok.span.start ∧
        e.span.stop = if children.length = 1 then l.span.stop - 1 else l.span.stop) ∧
    (e.kind = ExprKind.unit → e.span = ⟨tok.span.start, tok.span.stop + 1⟩) := by
  cases fuel with
  | zero => exact Option.noConfusion hok
  | succ fuel =>
    obtain ⟨tsp, tkind⟩ := tok
    cases tkind with
    | identOrKeyword s =>
      have h2 := Except.ok.inj (Option.some.inj hok)
      have he : classifyIdent tsp s = e := congrArg Prod.fst h2
      constructor
      · intro children hc
        rw [← he] at hc
        exact absurd hc ((classifyIdent_not_list_unit tsp s).1 children)
      · intro hu
        rw [← he] at hu
        exact absurd hu (classifyIdent_not_list_unit tsp s).2
    | integer i =>
      have h2 := Except.ok.inj (Option.some.inj hok)
      have he : (⟨tsp, .integer i⟩ : Expr) = e := congrArg Prod.fst h2
      constructor
      · intro children hc
        rw [← he] at hc
        simp [Expr.kind] at hc
      · intro hu
        rw [← he] at hu
        simp [Expr.kind] at hu
    | closeParen => exact Except.noConfusion (Option.some.inj hok)
    | whitespace => exact Option.noConfusion hok
    | openParen =>
      cases toks with
      | nil => exact Except.noConfusion (Option.some.inj hok)
      | cons next rest =>
        rw [parseToken_open_step] at hok
        by_cases hck : next.kind = .closeParen
        · rw [if_pos hck] at hok
          simp only [Option.some.injEq, Except.ok.injEq, Prod.mk.injEq] at hok
          obtain ⟨he, -⟩ := hok
          subst he
          constructor
          · intro children hc
            simp [Expr.kind] at hc
          · intro _
            rfl
        · rw [if_neg hck] at hok
          cases hpt : parseToken fuel next rest with
          | none => rw [hpt] at hok; exact Option.noConfusion hok
          | some r =>
            rw [hpt] at hok
            cases r with
            | error err => exact Except.noConfusion (Option.some.inj hok)
            | ok pr =>
              obtain ⟨first, rest2⟩ := pr
              obtain ⟨more, hkind, hstart, hstop⟩ :=
                parseList_span_inv fuel tsp.start [first] (first.span.stop - 1) rest2 e rest1 hok
              constructor
              · intro children hc
                rw [hkind] at hc
                injection hc with hc2
                subst hc2
                cases more with
                | nil =>
                  rcases hstop with ⟨-, hs⟩ | ⟨l, hl, -⟩
                  · exact ⟨first, by simp, hstart, by simp [hs]⟩
                  · exact Option.noConfusion hl
                | cons m ms =>
                  rcases hstop with ⟨hm, -⟩ | ⟨l, hl, hs⟩
                  · exact List.noConfusion hm
                  · refine ⟨l, ?_, hstart, ?_⟩
                    · rw [show [first] ++ m :: ms = first :: m :: ms from rfl,
                        List.getLast?_cons_cons]
                      exact hl
                    · have hlen : ([first] ++ m :: ms).length ≠ 1 := by simp
                      rw [if_neg hlen]
                      exact hs
              · intro hu
                rw [hkind] at hu
                exact ExprKind.noConfusion hu

/-- Witness for `list_expr_spans` on the token stream of `(a b)`. -/
theorem list_expr_spans_witness :
    parseToken 5 ⟨⟨0, 1⟩, .openParen⟩
        [⟨⟨1, 2⟩, .identOrKeyword "a"⟩, ⟨⟨3, 4⟩, .identOrKeyword "b"⟩, ⟨⟨4, 5⟩, .closeParen⟩] =
      some (.ok (⟨⟨0, 4⟩, .list [⟨⟨1, 2⟩, .identifier "a"⟩, ⟨⟨3, 4⟩, .identifier "b"⟩]⟩, [])) ∧
    ((∀ children,
        (⟨⟨0, 4⟩, .list [⟨⟨1, 2⟩, .identifier "a"⟩, ⟨⟨3, 4⟩, .identifier "b"⟩]⟩ : Expr).kind =
          ExprKind.list children →
        ∃ l, children.getLast? = some l ∧
          (⟨⟨0, 4⟩, .list [⟨⟨1, 2⟩, .identifier "a"⟩, ⟨⟨3, 4⟩, .identifier "b"⟩]⟩ : Expr).span.start =
            (⟨⟨0, 1⟩, .openParen⟩ : Token).span.start ∧
          (⟨⟨0, 4⟩, .list [⟨⟨1, 2⟩, .identifier "a"⟩, ⟨⟨3, 4⟩, .identifier "b"⟩]⟩ : Expr).span.stop =
            if children.length = 1 then l.span.stop - 1 else l.span.stop) ∧
     ((⟨⟨0, 4⟩, .list [⟨⟨1, 2⟩, .identifier "a"⟩, ⟨⟨3, 4⟩, .identifier "b"⟩]⟩ : Expr).kind =
        ExprKind.unit →
      (⟨⟨0, 4⟩, .list [⟨⟨1, 2⟩, .identifier "a"⟩, ⟨⟨3, 4⟩, .identifier "b"⟩]⟩ : Expr).span =
        ⟨(⟨⟨0, 1⟩, .openParen⟩ : Token).span.start,
         (⟨⟨0, 1⟩, .openParen⟩ : Token).span.stop + 1⟩)) :=
  ⟨rfl, list_expr_spans 5 ⟨⟨0, 1⟩, .openParen⟩
    [⟨⟨1, 2⟩, .identOrKeyword "a"⟩, ⟨⟨3, 4⟩, .identOrKeyword "b"⟩, ⟨⟨4, 5⟩, .closeParen⟩]
    ⟨⟨0, 4⟩, .list [⟨⟨1, 2⟩, .identifier "a"⟩, ⟨⟨3, 4⟩, .identifier "b"⟩]⟩ [] rfl⟩

theorem noWs_head {t : Token} {ts : List Token} (h : noWs (t :: ts) = true) :
    t.kind ≠ TokenKind.whitespace := by
  simp only [noWs, List.all_eq_true] at h
  have h2 := h t (List.mem_cons_self t ts)
  intro hk
  rw [hk] at h2
  simp at h2

theorem noWs_tail {t : Token} {ts : List Token} (h : noWs (t :: ts) = true) :
    noWs ts = true := by
  simp only [noWs, List.all_eq_true] at *
  exact fun x hx => h x (List.mem_cons_of_mem _ hx)

theorem noWs_suffix {l1 l2 : List Token} (hs : l1 <:+ l2) (h : noWs l2 = true) :
    noWs l1 = true := by
  simp only [noWs, List.all_eq_true] at *
  exact fun t ht => h t (hs.sublist.subset ht)

theorem scanDepth_mono : ∀ (toks : List Token) (d : Nat),
    scanDepth (d + 1) toks = true → scanDepth d toks = true := by
  intro toks
  induction toks with
  | nil => intro d h; simp [scanDepth] at h
  | cons t rest ih =>
    intro d h
    obtain ⟨sp, k⟩ := t
    cases k with
    | openParen =>
      simp only [scanDepth] at h ⊢
      exact ih (d + 1) h
    | closeParen =>
      cases d with
      | zero => simp [scanDepth]
      | succ d2 =>
        simp only [scanDepth] at h ⊢
        exact ih d2 h
    | identOrKeyword s => simp only [scanDepth] at h ⊢; exact ih d h
    | integer i => simp only [scanDepth] at h ⊢; exact ih d h
    | whitespace => simp only [scanDepth] at h ⊢; exact ih d h

theorem scanDepth_mono_false {toks : List Token} {d : Nat} (h : scanDepth d toks = false) :
    scanDepth (d + 1) toks = false := by
  cases hs : scanDepth (d + 1) toks with
  | false => rfl
  | true => rw [scanDepth_mono toks d hs] at h; exact Bool.noConfusion h

theorem openStack_extend : ∀ (toks : List Token) (st base : List Nat),
    scanDepth st.length toks = false →
    openStack (st ++ base) toks = openStack st toks ++ base := by
  intro toks
  induction toks with
  | nil => intro st base _; rfl
  | cons t rest ih =>
    intro st base h
    obtain ⟨sp, k⟩ := t
    cases k with
    | openParen =>
      simp only [scanDepth] at h
      simp only [openStack]
      exact ih (sp.start :: st) base (by simpa using h)
    | closeParen =>
      cases st with
      | nil => simp [scanDepth] at h
      | cons x st1 =>
        simp only [List.length_cons, scanDepth] at h
        simp only [List.cons_append, openStack]
        exact ih st1 base h
    | identOrKeyword s =>
      simp only [scanDepth] at h
      simp only [openStack]
      exact ih st base h
    | integer i =>
      simp only [scanDepth] at h
      simp only [openStack]
      exact ih st base h
    | whitespace =>
      simp only [scanDepth] at h
      simp only [openStack]
      exact ih st base h

theorem parse_scan_main : ∀ fuel : Nat,
    (∀ (tok : Token) (toks : List Token), noWs (tok :: toks) = true → toks.length < fuel →
      (∃ e rest1, parseToken fuel tok toks = some (.ok (e, rest1)) ∧ rest1 <:+ toks ∧
        (∀ d, scanDepth d (tok :: toks) = scanDepth d rest1) ∧
        (∀ st, openStack st (tok :: toks) = openStack st rest1)) ∨
      (parseToken fuel tok toks = some (.error (.unexpectedCloseDelimiter 0)) ∧
        tok.kind = .closeParen ∧ scanDepth 0 (tok :: toks) = true) ∨
      (∃ l p, parseToken fuel tok toks = some (.error (.unclosedDelimiter l p)) ∧
        scanDepth 0 (tok :: toks) = false ∧ (openStack [] (tok :: toks)).head? = some l)) ∧
    (∀ (s0 p0 : Nat) (c0 : List Expr) (toks : List Token),
        noWs toks = true → toks.length < fuel →
      (∃ e rest1, parseList fuel s0 c0 p0 toks = some (.ok (e, rest1)) ∧ rest1 <:+ toks ∧
        (∀ d, scanDepth (d + 1) toks = scanDepth d rest1) ∧
        (∀ x st, openStack (x :: st) toks = openStack st rest1)) ∨
      (∃ l p, parseList fuel s0 c0 p0 toks = some (.error (.unclosedDelimiter l p)) ∧
        scanDepth 1 toks = false ∧ (openStack [s0] toks).head? = some l)) := by
  intro fuel
  induction fuel with
  | zero =>
    exact ⟨fun _ _ _ h => absurd h (by omega), fun _ _ _ _ _ h => absurd h (by omega)⟩
  | succ fuel ih =>
    obtain ⟨ih1, ih2⟩ := ih
    constructor
    · -- parseToken part
      intro tok toks hws hlen
      obtain ⟨tsp, tkind⟩ := tok
      cases tkind with
      | identOrKeyword s =>
        left
        exact ⟨classifyIdent tsp s, toks, rfl, List.suffix_refl toks,
          fun d => by simp [scanDepth], fun st => by simp [openStack]⟩
      | integer i =>
        left
        exact ⟨⟨tsp, .integer i⟩, toks, rfl, List.suffix_refl toks,
          fun d => by simp [scanDepth], fun st => by simp [openStack]⟩
      | closeParen =>
        right; left
        exact ⟨rfl, rfl, by simp [scanDepth]⟩
      | whitespace =>
        exact absurd rfl (noWs_head hws)
      | openParen =>
        cases toks with
        | nil =>
          right; right
          exact ⟨tsp.start, tsp.stop - 1, rfl, by simp [scanDepth], by simp [openStack]⟩
        | cons next rest =>
          rw [parseToken_open_step]
          have hws2 : noWs (next :: rest) = true := noWs_tail hws
          have hlen2 : rest.length < fuel := by simp at hlen; omega
          by_cases hck : next.kind = .closeParen
          · rw [if_pos hck]
            obtain ⟨nsp, nk⟩ := next
            have hk : nk = .closeParen := hck
            subst hk
            left
            exact ⟨_, rest, rfl, List.suffix_cons _ rest,
              fun d => by simp [scanDepth], fun st => by simp [openStack]⟩
          · rw [if_neg hck]
            rcases ih1 next rest hws2 hlen2 with
              ⟨e1, rest1, hok, hsuf, hscan, hstack⟩ | ⟨-, hkind, -⟩ |
              ⟨l, p, herr, hscan0, hhead⟩
            · rw [hok]
              have hws3 : noWs rest1 = true := noWs_suffix hsuf (noWs_tail hws2)
              have hlen3 : rest1.length < fuel := lt_of_le_of_lt hsuf.length_le hlen2
              rcases ih2 tsp.start (e1.span.stop - 1) [e1] rest1 hws3 hlen3 with
                ⟨e2, rest2, hok2, hsuf2, hscan2, hstack2⟩ | ⟨l, p, herr2, hscan1, hhead2⟩
              · left
                refine ⟨e2, rest2, hok2, ?_, fun d => ?_, fun st => ?_⟩
                · exact (hsuf2.trans hsuf).trans (List.suffix_cons next rest)
                · have h1 : scanDepth d (⟨tsp, .openParen⟩ :: next :: rest) =
                      scanDepth (d + 1) (next :: rest) := by simp [scanDepth]
                  rw [h1, hscan (d + 1), hscan2 d]
                · have h1 : openStack st (⟨tsp, .openParen⟩ :: next :: rest) =
                      openStack (tsp.start :: st) (next :: rest) := by simp [openStack]
                  rw [h1, hstack (tsp.start :: st), hstack2 tsp.start st]
              · right; right
                refine ⟨l, p, herr2, ?_, ?_⟩
                · have h1 : scanDepth 0 (⟨tsp, .openParen⟩ :: next :: rest) =
                      scanDepth 1 (next :: rest) := by simp [scanDepth]
                  rw [h1, hscan 1]
                  exact hscan1
                · have h1 : openStack [] (⟨tsp, .openParen⟩ :: next :: rest) =
                      openStack [tsp.start] (next :: rest) := by simp [openStack]
                  rw [h1, hstack [tsp.start]]
                  exact hhead2
            · exact absurd hkind hck
            · rw [herr]
              right; right
              refine ⟨l, p, rfl, ?_, ?_⟩
              · have h1 : scanDepth 0 (⟨tsp, .openParen⟩ :: next :: rest) =
                    scanDepth 1 (next :: rest) := by simp [scanDepth]
                rw [h1]
                exact scanDepth_mono_false hscan0
              · have h1 : openStack [] (⟨tsp, .openParen⟩ :: next :: rest) =
                    openStack [tsp.start] (next :: rest) := by simp [openStack]
                rw [h1, show ([tsp.start] : List Nat) = [] ++ [tsp.start] from rfl,
                  openStack_extend (next :: rest) [] [tsp.start] (by simpa using hscan0)]
                cases hX : openStack [] (next :: rest) with
                | nil => rw [hX] at hhead; exact Option.noConfusion hhead
                | cons a as => rw [hX] at hhead; simpa using hhead
    · -- parseList part
      intro s0 p0 c0 toks hws hlen
      cases toks with
      | nil =>
        right
        exact ⟨s0, p0, rfl, by simp [scanDepth], by simp [openStack]⟩
      | cons next rest =>
        rw [parseList_step]
        have hlen2 : rest.length < fuel := by simp at hlen; omega
        by_cases hck : next.kind = .closeParen
        · rw [if_pos hck]
          obtain ⟨nsp, nk⟩ := next
          have hk : nk = .closeParen := hck
          subst hk
          left
          exact ⟨_, rest, rfl, List.suffix_cons _ rest,
            fun d => by simp [scanDepth], fun x st => by simp [openStack]⟩
        · rw [if_neg hck]
          rcases ih1 next rest hws hlen2 with
            ⟨e1, rest1, hok, hsuf, hscan, hstack⟩ | ⟨-, hkind, -⟩ |
            ⟨l, p, herr, hscan0, hhead⟩
          · rw [hok]
            have hws3 : noWs rest1 = true := noWs_suffix hsuf (noWs_tail hws)
            have hlen3 : rest1.length < fuel := lt_of_le_of_lt hsuf.length_le hlen2
            rcases ih2 s0 e1.span.stop (c0 ++ [e1]) rest1 hws3 hlen3 with
              ⟨e2, rest2, hok2, hsuf2, hscan2, hstack2⟩ | ⟨l, p, herr2, hscan1, hhead2⟩
            · left
              refine ⟨e2, rest2, hok2, ?_, fun d => ?_, fun x st => ?_⟩
              · exact (hsuf2.trans hsuf).trans (List.suffix_cons next rest)
              · rw [hscan (d + 1), hscan2 d]
              · rw [hstack (x :: st), hstack2 x st]
            · right
              refine ⟨l, p, herr2, ?_, ?_⟩
              · rw [hscan 1]
                exact hscan1
              · rw [hstack [s0]]
                exact hhead2
          · exact absurd hkind hck
          · rw [herr]
            right
            refine ⟨l, p, rfl, scanDepth_mono_false hscan0, ?_⟩
            rw [show ([s0] : List Nat) = [] ++ [s0] from rfl,
              openStack_extend (next :: rest) [] [s0] (by simpa using hscan0)]
            cases hX : openStack [] (next :: rest) with
            | nil => rw [hX] at hhead; exact Option.noConfusion hhead
            | cons a as => rw [hX] at hhead; simpa using hhead

theorem parseAll_ok_step (fuel : Nat) (tok : Token) (rest : List Token) (e : Expr)
    (rest1 : List Token) (h : parseToken fuel tok rest = some (.ok (e, rest1))) :
    parseAll (fuel + 1) (tok :: rest) =
      match parseAll fuel rest1 with
      | none => none
      | some (.error err) => some (.error err)
      | some (.ok es) => some (.ok (e :: es)) := by
  simp only [parseAll]
  rw [h]

theorem parseAll_error_step (fuel : Nat) (tok : Token) (rest : List Token) (err : ParseError)
    (h : parseToken fuel tok rest = some (.error err)) :
    parseAll (fuel + 1) (tok :: rest) = some (.error err) := by
  simp only [parseAll]
  rw [h]

/-- C4 (amended): on every whitespace-free token sequence in which a `)`
appears with no matching unclosed `(` before it (a close delimiter met at
paren-scan depth zero), `parse` fails with `UnexpectedCloseDelimiter`
carrying offset 0 — the source hardcodes 0, not the offset of the `)`. -/
theorem unmatched_close_reports_zero : ∀ (fuel : Nat) (toks : List Token),
    noWs toks = true → toks.length < fuel → scanDepth 0 toks = true →
    parseAll fuel toks = some (.error (.unexpectedCloseDelimiter 0)) := by
  intro fuel
  induction fuel with
  | zero => intro toks _ h _; omega
  | succ fuel ih =>
    intro toks hws hlen hscan
    cases toks with
    | nil => simp [scanDepth] at hscan
    | cons tok rest =>
      have hlen2 : rest.length < fuel := by simp at hlen; omega
      rcases (parse_scan_main fuel).1 tok rest hws hlen2 with
        ⟨e1, rest1, hok, hsuf, hscanEq, -⟩ | ⟨herr, -, -⟩ | ⟨l, p, herr, hscan0, -⟩
      · have hws1 : noWs rest1 = true := noWs_suffix hsuf (noWs_tail hws)
        have hlen1 : rest1.length < fuel := lt_of_le_of_lt hsuf.length_le hlen2
        have hscan1 : scanDepth 0 rest1 = true := by rw [← hscanEq 0]; exact hscan
        rw [parseAll_ok_step fuel tok rest e1 rest1 hok, ih rest1 hws1 hlen1 hscan1]
      · exact parseAll_error_step fuel tok rest _ herr
      · rw [hscan0] at hscan
        exact Bool.noConfusion hscan

/-- Witness for `unmatched_close_reports_zero` at a bare `)` token. -/
theorem unmatched_close_reports_zero_witness :
    (noWs [(⟨⟨0, 1⟩, .closeParen⟩ : Token)] = true) ∧
    ((1 : Nat) < 2) ∧
    (scanDepth 0 [(⟨⟨0, 1⟩, .closeParen⟩ : Token)] = true) ∧
    parseAll 2 [(⟨⟨0, 1⟩, .closeParen⟩ : Token)] =
      some (.error (.unexpectedCloseDelimiter 0)) :=
  ⟨by decide, by decide, by decide,
   unmatched_close_reports_zero 2 [⟨⟨0, 1⟩, .closeParen⟩] (by decide) (by decide) (by decide)⟩

theorem unclosed_open_reports : ∀ (fuel : Nat) (toks : List Token),
    noWs toks = true → toks.length < fuel → scanDepth 0 toks = false →
    ∀ l, (openStack [] toks).head? = some l →
    ∃ p, parseAll fuel toks = some (.error (.unclosedDelimiter l p)) := by
  intro fuel
  induction fuel with
  | zero => intro toks _ h; omega
  | succ fuel ih =>
    intro toks hws hlen hscan l hhead
    cases toks with
    | nil => simp [openStack] at hhead
    | cons tok rest =>
      have hlen2 : rest.length < fuel := by simp at hlen; omega
      rcases (parse_scan_main fuel).1 tok rest hws hlen2 with
        ⟨e1, rest1, hok, hsuf, hscanEq, hstackEq⟩ | ⟨-, -, hscantrue⟩ |
        ⟨l2, p, herr, -, hhead2⟩
      · have hws1 : noWs rest1 = true := noWs_suffix hsuf (noWs_tail hws)
        have hlen1 : rest1.length < fuel := lt_of_le_of_lt hsuf.length_le hlen2
        have hscan1 : scanDepth 0 rest1 = false := by rw [← hscanEq 0]; exact hscan
        have hhead1 : (openStack [] rest1).head? = some l := by rw [← hstackEq []]; exact hhead
        obtain ⟨p, hp⟩ := ih rest1 hws1 hlen1 hscan1 l hhead1
        refine ⟨p, ?_⟩
        rw [parseAll_ok_step fuel tok rest e1 rest1 hok, hp]
      · rw [hscantrue] at hscan
        exact Bool.noConfusion hscan
      · have hl : l2 = l := by rw [hhead2] at hhead; exact Option.some.inj hhead
        subst hl
        exact ⟨p, parseAll_error_step fuel tok rest _ herr⟩

/-- C5 (amended): on every whitespace-free token sequence with no unmatched
`)` that ends while at least one `(` is unmatched, `parse` returns
`UnclosedDelimiter` — it does not panic — whose `location` is the offset of
the most recently opened unclosed `(` (the head of the final open-paren
stack).  The `eof` field is the parser's last recorded `prev_expr_span_end`,
not uniformly "the last successfully consumed position"; on the concrete
program of the claim it is 30 and the location is 21. -/
theorem unclosed_open_diag :
    (∀ (fuel : Nat) (toks : List Token) (l : Nat),
      noWs toks = true → toks.length < fuel → scanDepth 0 toks = false →
      (openStack [] toks).head? = some l →
      ∃ p, parseAll fuel toks = some (.error (.unclosedDelimiter l p))) ∧
    parseStr "(add 2 (second 3 4)) (foobar 1" =
      some (.error (.unclosedDelimiter 21 30)) :=
  ⟨fun fuel toks l hws hlen hscan hhead =>
    unclosed_open_reports fuel toks hws hlen hscan l hhead, rfl⟩

/-- Witness for `unclosed_open_diag` at a lone `(` token. -/
theorem unclosed_open_diag_witness :
    (noWs [(⟨⟨0, 1⟩, .openParen⟩ : Token)] = true) ∧
    ((1 : Nat) < 2) ∧
    (scanDepth 0 [(⟨⟨0, 1⟩, .openParen⟩ : Token)] = false) ∧
    ((openStack [] [(⟨⟨0, 1⟩, .openParen⟩ : Token)]).head? = some 0) ∧
    ∃ p, parseAll 2 [(⟨⟨0, 1⟩, .openParen⟩ : Token)] =
      some (.error (.unclosedDelimiter 0 p)) :=
  ⟨by decide, by decide, by decide, by decide,
   unclosed_open_diag.1 2 [⟨⟨0, 1⟩, .openParen⟩] 0 (by decide) (by decide) (by decide)
     (by decide)⟩

/-! ## Interpreter lemmas (C7) -/

theorem add_native_go_no_list : ∀ (bs : List Binding) (acc : Int) (r : Binding),
    add_native_go acc bs = .ok r → ∀ sp c, r ≠ Binding.expression ⟨sp, ExprKind.list c⟩ := by
  intro bs
  induction bs with
  | nil =>
    intro acc r h sp c heq
    have h2 := Except.ok.inj h
    rw [← h2] at heq
    injection heq with h3
    injection h3 with h4 h5
    exact ExprKind.noConfusion h5
  | cons b rest ih =>
    intro acc r h sp c
    cases b with
    | expression e =>
      obtain ⟨esp2, ekind2⟩ := e
      cases ekind2 with
      | integer i =>
        have h2 : add_native_go (acc + i) rest = .ok r := h
        exact ih (acc + i) r h2 sp c
      | keyword k => exact absurd h (fun h2 => Except.noConfusion h2)
      | identifier s => exact absurd h (fun h2 => Except.noConfusion h2)
      | boolean v => exact absurd h (fun h2 => Except.noConfusion h2)
      | unit => exact absurd h (fun h2 => Except.noConfusion h2)
      | argument idx => exact absurd h (fun h2 => Except.noConfusion h2)
      | list es => exact absurd h (fun h2 => Except.noConfusion h2)
    | function n body => exact absurd h (fun h2 => Except.noConfusion h2)
    | nativeFunction a f => exact absurd h (fun h2 => Except.noConfusion h2)

theorem evalNativeArgs_cons_core (fuel : Nat) (b0 : Binding) (rest : List Expr)
    (res : List Binding)
    (h : ((match evalNativeArgs fuel rest with
          | none => none
          | some (Except.error err) => some (Except.error err)
          | some (Except.ok bs) => some (Except.ok (b0 :: bs))) :
            Option (Except InterpreterError (List Binding))) = some (.ok res)) :
    ∃ bs, evalNativeArgs fuel rest = some (.ok bs) ∧ res = b0 :: bs := by
  cases hena : evalNativeArgs fuel rest with
  | none => rw [hena] at h; exact Option.noConfusion h
  | some r =>
    rw [hena] at h
    cases r with
    | error err => exact Except.noConfusion (Option.some.inj h)
    | ok bs => exact ⟨bs, rfl, (Except.ok.inj (Option.some.inj h)).symm⟩

theorem interp_no_raw_list : ∀ fuel : Nat,
    (∀ es b, interpret fuel es = some (.ok b) →
      ∀ sp c, b ≠ Binding.expression ⟨sp, ExprKind.list c⟩) ∧
    (∀ id spn es b, handle_identifier fuel id spn es = some (.ok b) →
      ∀ sp c, b ≠ Binding.expression ⟨sp, ExprKind.list c⟩) ∧
    (∀ fb id spn es b, handle_function fuel fb id spn es = some (.ok b) →
      ∀ sp c, b ≠ Binding.expression ⟨sp, ExprKind.list c⟩) ∧
    (∀ es res, evalNativeArgs fuel es = some (.ok res) →
      ∀ b ∈ res, ∀ sp c, b ≠ Binding.expression ⟨sp, ExprKind.list c⟩) := by
  intro fuel
  induction fuel with
  | zero =>
    refine ⟨fun _ _ h => ?_, fun _ _ _ _ h => ?_, fun _ _ _ _ _ h => ?_, fun _ _ h => ?_⟩ <;>
      exact Option.noConfusion h
  | succ fuel ih =>
    obtain ⟨ih1, ih2, ih3, ih4⟩ := ih
    refine ⟨?_, ?_, ?_, ?_⟩
    · -- interpret
      intro es b h
      cases es with
      | nil =>
        have h2 := Except.ok.inj (Option.some.inj h)
        intro sp c heq
        rw [← h2] at heq
        injection heq with h3
        injection h3 with h4 h5
        exact ExprKind.noConfusion h5
      | cons e rest =>
        obtain ⟨esp, ekind⟩ := e
        cases ekind with
        | integer i =>
          have h2 := Except.ok.inj (Option.some.inj h)
          intro sp c heq
          rw [← h2] at heq
          injection heq with h3
          injection h3 with h4 h5
          exact ExprKind.noConfusion h5
        | boolean v =>
          have h2 := Except.ok.inj (Option.some.inj h)
          intro sp c heq
          rw [← h2] at heq
          injection heq with h3
          injection h3 with h4 h5
          exact ExprKind.noConfusion h5
        | unit =>
          have h2 := Except.ok.inj (Option.some.inj h)
          intro sp c heq
          rw [← h2] at heq
          injection heq with h3
          injection h3 with h4 h5
          exact ExprKind.noConfusion h5
        | list inner => exact ih1 inner b h
        | identifier id => exact ih2 id esp rest b h
        | keyword k => exact Option.noConfusion h
        | argument idx => exact Option.noConfusion h
    · -- handle_identifier
      intro id spn es b h
      by_cases h1 : id = "add"
      · subst h1
        have h2 : (if es.length ≠ 0 then
            handle_function fuel (Binding.nativeFunction none NativeFn.addNative) "add" spn es
          else some (.ok (Binding.nativeFunction none NativeFn.addNative))) = some (.ok b) := h
        by_cases hlen : es.length ≠ 0
        · rw [if_pos hlen] at h2
          exact ih3 _ "add" spn es b h2
        · rw [if_neg hlen] at h2
          have h3 := Except.ok.inj (Option.some.inj h2)
          intro sp c heq
          rw [← h3] at heq
          exact Binding.noConfusion heq
      · by_cases h2 : id = "second"
        · subst h2
          have h3 : (if es.length ≠ 0 then
              handle_function fuel (Binding.function 2 ⟨⟨0, 0⟩, .argument 1⟩) "second" spn es
            else some (.ok (Binding.function 2 ⟨⟨0, 0⟩, .argument 1⟩))) = some (.ok b) := h
          by_cases hlen : es.length ≠ 0
          · rw [if_pos hlen] at h3
            exact ih3 _ "second" spn es b h3
          · rw [if_neg hlen] at h3
            have h4 := Except.ok.inj (Option.some.inj h3)
            intro sp c heq
            rw [← h4] at heq
            exact Binding.noConfusion heq
        · have hn : newBindings id = none := by simp [newBindings, h1, h2]
          have h3 : (match newBindings id with
            | none => some (.error (.unknownIdentifier id))
            | some (.expression e) => some (.ok (.expression e))
            | some binding =>
              if es.length ≠ 0 then handle_function fuel binding id spn es
              else some (.ok binding)) = some (Except.ok b) := h
          rw [hn] at h3
          exact Except.noConfusion (Option.some.inj h3)
    · -- handle_function
      intro fb id spn es b h
      cases fb with
      | expression e => exact Option.noConfusion h
      | function n body =>
        have h2 : (if es.length ≠ n then
            some (.error (.wrongNumArgs id n es.length))
          else
            match (match body.kind with
                   | .argument num => es.get? num
                   | _ => some body) with
            | none => none
            | some body1 =>
              match body1.kind with
              | .list contents =>
                match substTop es contents with
                | none => none
                | some contents1 => interpret fuel contents1
              | .identifier s2 => handle_identifier fuel id body1.span []
              | .integer i => some (.ok (.expression body1))
              | .boolean v => some (.ok (.expression body1))
              | .unit => some (.ok (.expression body1))
              | _ => none) = some (.ok b) := h
        by_cases harg : es.length ≠ n
        · rw [if_pos harg] at h2
          exact Except.noConfusion (Option.some.inj h2)
        · rw [if_neg harg] at h2
          cases hb1 : (match body.kind with
                      | .argument num => es.get? num
                      | _ => some body) with
          | none => rw [hb1] at h2; exact Option.noConfusion h2
          | some body1 =>
            rw [hb1] at h2
            obtain ⟨bsp, bkind⟩ := body1
            cases bkind with
            | list contents =>
              cases hs : substTop es contents with
              | none =>
                have h3 : (match substTop es contents with
                  | none => none
                  | some contents1 => interpret fuel contents1) = some (Except.ok b) := h2
                rw [hs] at h3
                exact Option.noConfusion h3
              | some contents1 =>
                have h3 : (match substTop es contents with
                  | none => none
                  | some contents1 => interpret fuel contents1) = some (Except.ok b) := h2
                rw [hs] at h3
                exact ih1 contents1 b h3
            | identifier s2 => exact ih2 id bsp [] b h2
            | integer i =>
              have h3 := Except.ok.inj (Option.some.inj h2)
              intro sp c heq
              rw [← h3] at heq
              injection heq with h4
              injection h4 with h5 h6
              exact ExprKind.noConfusion h6
            | boolean v =>
              have h3 := Except.ok.inj (Option.some.inj h2)
              intro sp c heq
              rw [← h3] at heq
              injection heq with h4
              injection h4 with h5 h6
              exact ExprKind.noConfusion h6
            | unit =>
              have h3 := Except.ok.inj (Option.some.inj h2)
              intro sp c heq
              rw [← h3] at heq
              injection heq with h4
              injection h4 with h5 h6
              exact ExprKind.noConfusion h6
            | keyword k => exact Option.noConfusion h2
            | argument idx => exact Option.noConfusion h2
      | nativeFunction arity f =>
        cases arity with
        | some n =>
          have h2 : (if es.length ≠ n then
              some (.error (.wrongNumArgs id n es.length))
            else
              match evalNativeArgs fuel es with
              | none => none
              | some (.error e) => some (.error e)
              | some (.ok bs) => some (applyNative f bs)) = some (.ok b) := h
          by_cases harg : es.length ≠ n
          · rw [if_pos harg] at h2
            exact Except.noConfusion (Option.some.inj h2)
          · rw [if_neg harg] at h2
            cases hena : evalNativeArgs fuel es with
            | none => rw [hena] at h2; exact Option.noConfusion h2
            | some r =>
              rw [hena] at h2
              cases r with
              | error err => exact Except.noConfusion (Option.some.inj h2)
              | ok bs =>
                have h3 := Option.some.inj h2
                cases f
                exact add_native_go_no_list bs 0 b h3
        | none =>
          have h2 : (match evalNativeArgs fuel es with
            | none => none
            | some (.error e) => some (.error e)
            | some (.ok bs) => some (applyNative f bs)) = some (.ok b) := h
          cases hena : evalNativeArgs fuel es with
          | none => rw [hena] at h2; exact Option.noConfusion h2
          | some r =>
            rw [hena] at h2
            cases r with
            | error err => exact Except.noConfusion (Option.some.inj h2)
            | ok bs =>
              have h3 := Option.some.inj h2
              cases f
              exact add_native_go_no_list bs 0 b h3
    · -- evalNativeArgs
      intro es res h
      cases es with
      | nil =>
        have h2 := Except.ok.inj (Option.some.inj h)
        intro b hb
        rw [← h2] at hb
        simp at hb
      | cons e rest =>
        obtain ⟨esp, ekind⟩ := e
        cases ekind with
        | list contents =>
          have h2 : (match interpret fuel contents with
            | none => none
            | some (.error err) => some (.error err)
            | some (.ok b) =>
              match evalNativeArgs fuel rest with
              | none => none
              | some (.error err) => some (.error err)
              | some (.ok bs) => some (.ok (b :: bs))) = some (Except.ok res) := h
          cases hint : interpret fuel contents with
          | none => rw [hint] at h2; exact Option.noConfusion h2
          | some ri =>
            rw [hint] at h2
            cases ri with
            | error err => exact Except.noConfusion (Option.some.inj h2)
            | ok b0 =>
              obtain ⟨bs, hbs, hres⟩ := evalNativeArgs_cons_core fuel b0 rest res h2
              intro b hb
              rw [hres] at hb
              rcases List.mem_cons.mp hb with hhead | htail
              · subst hhead
                exact ih1 contents b hint
              · exact ih4 rest bs hbs b htail
        | integer i =>
          obtain ⟨bs, hbs, hres⟩ :=
            evalNativeArgs_cons_core fuel (Binding.expression ⟨esp, .integer i⟩) rest res h
          intro b hb
          rw [hres] at hb
          rcases List.mem_cons.mp hb with hhead | htail
          · subst hhead
            intro sp c heq
            injection heq with h4
            injection h4 with h5 h6
            exact ExprKind.noConfusion h6
          · exact ih4 rest bs hbs b htail
        | boolean v =>
          obtain ⟨bs, hbs, hres⟩ :=
            evalNativeArgs_cons_core fuel (Binding.expression ⟨esp, .boolean v⟩) rest res h
          intro b hb
          rw [hres] at hb
          rcases List.mem_cons.mp hb with hhead | htail
          · subst hhead
            intro sp c heq
            injection heq with h4
            injection h4 with h5 h6
            exact ExprKind.noConfusion h6
          · exact ih4 rest bs hbs b htail
        | unit =>
          obtain ⟨bs, hbs, hres⟩ :=
            evalNativeArgs_cons_core fuel (Binding.expression ⟨esp, .unit⟩) rest res h
          intro b hb
          rw [hres] at hb
          rcases List.mem_cons.mp hb with hhead | htail
          · subst hhead
            intro sp c heq
            injection heq with h4
            injection h4 with h5 h6
            exact ExprKind.noConfusion h6
          · exact ih4 rest bs hbs b htail
        | identifier s2 =>
          obtain ⟨bs, hbs, hres⟩ :=
            evalNativeArgs_cons_core fuel (Binding.expression ⟨esp, .identifier s2⟩) rest res h
          intro b hb
          rw [hres] at hb
          rcases List.mem_cons.mp hb with hhead | htail
          · subst hhead
            intro sp c heq
            injection heq with h4
            injection h4 with h5 h6
            exact ExprKind.noConfusion h6
          · exact ih4 rest bs hbs b htail
        | keyword k =>
          obtain ⟨bs, hbs, hres⟩ :=
            evalNativeArgs_cons_core fuel (Binding.expression ⟨esp, .keyword k⟩) rest res h
          intro b hb
          rw [hres] at hb
          rcases List.mem_cons.mp hb with hhead | htail
          · subst hhead
            intro sp c heq
            injection heq with h4
            injection h4 with h5 h6
            exact ExprKind.noConfusion h6
          · exact ih4 rest bs hbs b htail
        | argument idx =>
          obtain ⟨bs, hbs, hres⟩ :=
            evalNativeArgs_cons_core fuel (Binding.expression ⟨esp, .argument idx⟩) rest res h
          intro b hb
          rw [hres] at hb
          rcases List.mem_cons.mp hb with hhead | htail
          · subst hhead
            intro sp c heq
            injection heq with h4
            injection h4 with h5 h6
            exact ExprKind.noConfusion h6
          · exact ih4 rest bs hbs b htail

/-- C7 (amended): for a native call whose declared-arity check passes, the
argument loop pairs each supplied expression with the binding the host will
receive: a `List` argument is first reduced by a nested `interpret` call,
while every other argument — identifiers and keywords included — is passed
through unevaluated as an `Expression` binding.  Consequently the host never
receives a raw `List` expression, though it may receive other unreduced
syntax (see the counterexample). -/
theorem native_args_reduced : ∀ (fuel : Nat) (args : List Expr) (res : List Binding),
    evalNativeArgs fuel args = some (.ok res) →
    res.length = args.length ∧
    List.Forall₂ (fun e b =>
      ((∀ c, e.kind ≠ ExprKind.list c) → b = Binding.expression e) ∧
      (∀ c, e.kind = ExprKind.list c → ∃ fl, interpret fl c = some (.ok b))) args res ∧
    (∀ b ∈ res, ∀ sp c, b ≠ Binding.expression ⟨sp, ExprKind.list c⟩) := by
  intro fuel
  induction fuel with
  | zero => intro args res h; exact Option.noConfusion h
  | succ fuel ih =>
    intro args res h
    cases args with
    | nil =>
      have h2 := Except.ok.inj (Option.some.inj h)
      subst h2
      exact ⟨rfl, List.Forall₂.nil, fun b hb => absurd hb (List.not_mem_nil b)⟩
    | cons e rest =>
      obtain ⟨esp, ekind⟩ := e
      cases ekind with
      | list contents =>
        have h2 : ((match interpret fuel contents with
          | none => none
          | some (Except.error err) => some (Except.error err)
          | some (Except.ok b) =>
            match evalNativeArgs fuel rest with
            | none => none
            | some (Except.error err) => some (Except.error err)
            | some (Except.ok bs) => some (Except.ok (b :: bs))) :
              Option (Except InterpreterError (List Binding))) = some (.ok res) := h
        cases hint : interpret fuel contents with
        | none => rw [hint] at h2; exact Option.noConfusion h2
        | some ri =>
          rw [hint] at h2
          cases ri with
          | error err => exact Except.noConfusion (Option.some.inj h2)
          | ok b0 =>
            obtain ⟨bs, hbs, hres⟩ := evalNativeArgs_cons_core fuel b0 rest res h2
            subst hres
            obtain ⟨hlen, hfa, hinv⟩ := ih rest bs hbs
            refine ⟨by simp [hlen], List.Forall₂.cons ⟨?_, ?_⟩ hfa, ?_⟩
            · intro hno
              exact absurd rfl (hno contents)
            · intro c hc
              have hc2 : ExprKind.list contents = ExprKind.list c := hc
              injection hc2 with hc3
              subst hc3
              exact ⟨fuel, hint⟩
            · intro b hb
              rcases List.mem_cons.mp hb with hhead | htail
              · subst hhead
                exact (interp_no_raw_list fuel).1 contents b hint
              · exact hinv b htail
      | integer i =>
        obtain ⟨bs, hbs, hres⟩ :=
          evalNativeArgs_cons_core fuel (Binding.expression ⟨esp, .integer i⟩) rest res h
        subst hres
        obtain ⟨hlen, hfa, hinv⟩ := ih rest bs hbs
        refine ⟨by simp [hlen], List.Forall₂.cons ⟨fun _ => rfl, ?_⟩ hfa, ?_⟩
        · intro c hc
          exact absurd hc (by simp [Expr.kind])
        · intro b hb
          rcases List.mem_cons.mp hb with hhead | htail
          · subst hhead
            intro sp c heq
            injection heq with h4
            injection h4 with h5 h6
            exact ExprKind.noConfusion h6
          · exact hinv b htail
      | boolean v =>
        obtain ⟨bs, hbs, hres⟩ :=
          evalNativeArgs_cons_core fuel (Binding.expression ⟨esp, .boolean v⟩) rest res h
        subst hres
        obtain ⟨hlen, hfa, hinv⟩ := ih rest bs hbs
        refine ⟨by simp [hlen], List.Forall₂.cons ⟨fun _ => rfl, ?_⟩ hfa, ?_⟩
        · intro c hc
          exact absurd hc (by simp [Expr.kind])
        · intro b hb
          rcases List.mem_cons.mp hb with hhead | htail
          · subst hhead
            intro sp c heq
            injection heq with h4
            injection h4 with h5 h6
            exact ExprKind.noConfusion h6
          · exact hinv b htail
      | unit =>
        obtain ⟨bs, hbs, hres⟩ :=
          evalNativeArgs_cons_core fuel (Binding.expression ⟨esp, .unit⟩) rest res h
        subst hres
        obtain ⟨hlen, hfa, hinv⟩ := ih rest bs hbs
        refine ⟨by simp [hlen], List.Forall₂.cons ⟨fun _ => rfl, ?_⟩ hfa, ?_⟩
        · intro c hc
          exact absurd hc (by simp [Expr.kind])
        · intro b hb
          rcases List.mem_cons.mp hb with hhead | htail
          · subst hhead
            intro sp c heq
            injection heq with h4
            injection h4 with h5 h6
            exact ExprKind.noConfusion h6
          · exact hinv b htail
      | identifier s2 =>
        obtain ⟨bs, hbs, hres⟩ :=
          evalNativeArgs_cons_core fuel (Binding.expression ⟨esp, .identifier s2⟩) rest res h
        subst hres
        obtain ⟨hlen, hfa, hinv⟩ := ih rest bs hbs
        refine ⟨by simp [hlen], List.Forall₂.cons ⟨fun _ => rfl, ?_⟩ hfa, ?_⟩
        · intro c hc
          exact absurd hc (by simp [Expr.kind])
        · intro b hb
          rcases List.mem_cons.mp hb with hhead | htail
          · subst hhead
            intro sp c heq
            injection heq with h4
            injection h4 with h5 h6
            exact ExprKind.noConfusion h6
          · exact hinv b htail
      | keyword k =>
        obtain ⟨bs, hbs, hres⟩ :=
          evalNativeArgs_cons_core fuel (Binding.expression ⟨esp, .keyword k⟩) rest res h
        subst hres
        obtain ⟨hlen, hfa, hinv⟩ := ih rest bs hbs
        refine ⟨by simp [hlen], List.Forall₂.cons ⟨fun _ => rfl, ?_⟩ hfa, ?_⟩
        · intro c hc
          exact absurd hc (by simp [Expr.kind])
        · intro b hb
          rcases List.mem_cons.mp hb with hhead | htail
          · subst hhead
            intro sp c heq
            injection heq with h4
            injection h4 with h5 h6
            exact ExprKind.noConfusion h6
          · exact hinv b htail
      | argument idx =>
        obtain ⟨bs, hbs, hres⟩ :=
          evalNativeArgs_cons_core fuel (Binding.expression ⟨esp, .argument idx⟩) rest res h
        subst hres
        obtain ⟨hlen, hfa, hinv⟩ := ih rest bs hbs
        refine ⟨by simp [hlen], List.Forall₂.cons ⟨fun _ => rfl, ?_⟩ hfa, ?_⟩
        · intro c hc
          exact absurd hc (by simp [Expr.kind])
        · intro b hb
          rcases List.mem_cons.mp hb with hhead | htail
          · subst hhead
            intro sp c heq
            injection heq with h4
            injection h4 with h5 h6
            exact ExprKind.noConfusion h6
          · exact hinv b htail

/-- Witness for `native_args_reduced` on the argument list of `(add 2 (second 3 4))`
shape: one integer and one nested list. -/
theorem native_args_reduced_witness :
    evalNativeArgs 10 [⟨⟨0, 0⟩, .integer 2⟩, ⟨⟨0, 0⟩, .list [⟨⟨1, 2⟩, .integer 3⟩]⟩] =
      some (.ok [Binding.expression ⟨⟨0, 0⟩, .integer 2⟩,
                 Binding.expression ⟨⟨1, 2⟩, .integer 3⟩]) ∧
    ([Binding.expression ⟨⟨0, 0⟩, .integer 2⟩,
      Binding.expression ⟨⟨1, 2⟩, .integer 3⟩].length =
        [(⟨⟨0, 0⟩, .integer 2⟩ : Expr), ⟨⟨0, 0⟩, .list [⟨⟨1, 2⟩, .integer 3⟩]⟩].length ∧
     List.Forall₂ (fun e b =>
       ((∀ c, e.kind ≠ ExprKind.list c) → b = Binding.expression e) ∧
       (∀ c, e.kind = ExprKind.list c → ∃ fl, interpret fl c = some (.ok b)))
       [(⟨⟨0, 0⟩, .integer 2⟩ : Expr), ⟨⟨0, 0⟩, .list [⟨⟨1, 2⟩, .integer 3⟩]⟩]
       [Binding.expression ⟨⟨0, 0⟩, .integer 2⟩,
        Binding.expression ⟨⟨1, 2⟩, .integer 3⟩] ∧
     (∀ b ∈ [Binding.expression ⟨⟨0, 0⟩, .integer 2⟩,
             Binding.expression ⟨⟨1, 2⟩, .integer 3⟩],
       ∀ sp c, b ≠ Binding.expression ⟨sp, ExprKind.list c⟩)) :=
  ⟨rfl, native_args_reduced 10
    [⟨⟨0, 0⟩, .integer 2⟩, ⟨⟨0, 0⟩, .list [⟨⟨1, 2⟩, .integer 3⟩]⟩]
    [Binding.expression ⟨⟨0, 0⟩, .integer 2⟩, Binding.expression ⟨⟨1, 2⟩, .integer 3⟩] rfl⟩
